import Mathlib

/-!
Verification of the CoolPlay voice-command pipeline.

The definitions below are shallow embeddings of the TypeScript sources:
the matcher findMatchingCommand of the voice-control provider, the player
dispatcher helpers of the player screen, the custom-command form handler,
the storage corruption heuristic of the storage provider, and the
membership usage bookkeeping of the membership provider.  Catalog data
(intent tables, legacy command tables) is passed as an explicit parameter
since the JSON resources are loaded once and never mutated.
-/

/-- Substring containment test, the embedding of the JavaScript call
t.includes(u): u occurs contiguously inside t. -/
def includesStr (t u : String) : Bool := decide (u.data <:+: t.data)

/-- Character-wise lowercasing, the embedding of the JavaScript method
toLowerCase. -/
def lowerStr (s : String) : String := String.mk (s.data.map Char.toLower)

/-- Removal of leading and trailing whitespace, the embedding of the
JavaScript method trim. -/
def trimStr (s : String) : String :=
  String.mk
    (((s.data.dropWhile Char.isWhitespace).reverse.dropWhile
        Char.isWhitespace).reverse)

/-- Lowercase and trim, the normalization applied to transcripts and to
intent-table utterances. -/
def normText (s : String) : String := trimStr (lowerStr s)

/-- Per-language utterance lookup with fallback to the default language:
the embedding of utterances[lang] or-else utterances[en]. -/
def lookupUtter (utts : List (String × List String)) (lang : String) :
    Option (List String) :=
  match List.lookup lang utts with
  | some us => some us
  | none => List.lookup "en" utts

/-- One entry of the intent catalog (voiceIntents.json): an intent id and a
per-language utterance table. -/
structure IntentEntry where
  intent : String
  utterances : List (String × List String)
deriving DecidableEq

/-- One entry of the legacy grouped-command catalog (voiceCommands.json). -/
structure LegacyCommand where
  action : String
  usage_count : Nat
  utterances : List (String × List String)
deriving DecidableEq

/-- The intent-table check for a single catalog entry: some utterance for
the requested language (with default-language fallback), once lowercased
and trimmed, is equal to or contained in the normalized transcript. -/
def intentMatches (t lang : String) (item : IntentEntry) : Bool :=
  match lookupUtter item.utterances lang with
  | none => false
  | some us => us.any (fun u => t == normText u || includesStr t (normText u))

/-- The intent-table pass: first catalog entry that matches, in catalog
order, embedding the for-loop with early return. -/
def findIntent (intents : List IntentEntry) (t lang : String) :
    Option IntentEntry :=
  List.find? (intentMatches t lang) intents

/-- Containment score of a (lowercased) utterance against the normalized
transcript: utterance length divided by transcript length. -/
def utterScore (t nu : String) : ℚ := (nu.length : ℚ) / (t.length : ℚ)

/-- Inner loop of the legacy pass over the utterances of one command:
an exact match returns early (Boolean true component); a containment
match updates the running best score and best command when the score
strictly improves. -/
def scanUtts (t : String) (c : LegacyCommand) :
    List String → ℚ → Option LegacyCommand → Bool × ℚ × Option LegacyCommand
  | [], best, bm => (false, best, bm)
  | u :: rest, best, bm =>
    if t == lowerStr u then (true, best, bm)
    else if includesStr t (lowerStr u) then
      if utterScore t (lowerStr u) > best then
        scanUtts t c rest (utterScore t (lowerStr u)) (some c)
      else scanUtts t c rest best bm
    else scanUtts t c rest best bm

/-- Outer loop of the legacy pass over the grouped commands: commands
without an utterance list for the language (after fallback) are skipped;
an exact match returns that command immediately; otherwise the best
scoring command is returned at the end when its score exceeds one half. -/
def scanCmds (t lang : String) :
    List LegacyCommand → ℚ → Option LegacyCommand → Option LegacyCommand
  | [], best, bm => if best > 1 / 2 then bm else none
  | c :: rest, best, bm =>
    match lookupUtter c.utterances lang with
    | none => scanCmds t lang rest best bm
    | some us =>
      match scanUtts t c us best bm with
      | (true, _, _) => some c
      | (false, best', bm') => scanCmds t lang rest best' bm'

/-- Result of the matcher: nothing, an intent-table hit, or a legacy
grouped-command hit. -/
inductive MatchOut where
  | noMatch : MatchOut
  | intentM (i : IntentEntry) : MatchOut
  | legacyM (c : LegacyCommand) : MatchOut
deriving DecidableEq

/-- The matcher findMatchingCommand: guard on the empty transcript,
normText, run the intent-table pass, then fall back to the legacy
containment-scored pass. -/
def findMatchingCommand (intents : List IntentEntry)
    (cmds : List LegacyCommand) (text lang : String) : MatchOut :=
  if text = "" then MatchOut.noMatch
  else
    match findIntent intents (normText text) lang with
    | some i => MatchOut.intentM i
    | none =>
      match scanCmds (normText text) lang cmds 0 none with
      | some c => MatchOut.legacyM c
      | none => MatchOut.noMatch

/-- Utterance list of a legacy command for a language after fallback,
empty when the lookup fails. -/
def cmdUtts (lang : String) (c : LegacyCommand) : List String :=
  (lookupUtter c.utterances lang).getD []

/-- Scores of the utterances of one command that are contained in the
transcript. -/
def uttScoreList (t : String) (us : List String) : List ℚ :=
  us.filterMap (fun u =>
    if includesStr t (lowerStr u) then some (utterScore t (lowerStr u)) else none)

/-- Maximum of a list of rationals, zero for the empty list. -/
def maxQ (l : List ℚ) : ℚ := l.foldr max 0

/-- All containment scores of the legacy catalog against a transcript. -/
def legacyScoreList (t lang : String) (cmds : List LegacyCommand) : List ℚ :=
  (cmds.map (fun c => uttScoreList t (cmdUtts lang c))).flatten

/-- The best containment score over every legacy utterance that is a
substring of the transcript. -/
def maxLegacyScore (t lang : String) (cmds : List LegacyCommand) : ℚ :=
  maxQ (legacyScoreList t lang cmds)

/-- The command c realizes score b: one of its utterances for the language
is contained in the transcript with exactly that score. -/
def attainsMax (t lang : String) (c : LegacyCommand) (b : ℚ) : Prop :=
  ∃ u ∈ cmdUtts lang c,
    includesStr t (lowerStr u) = true ∧ utterScore t (lowerStr u) = b

example : includesStr "please pause now" "pause" = true := by decide
example : includesStr "please pause now" "paused" = false := by decide
example : normText " Pause " = "pause" := by decide
example : utterScore "please pause now" "pause" = 5 / 16 := by
  have h1 : ("pause").length = 5 := rfl
  have h2 : ("please pause now").length = 16 := rfl
  rw [utterScore, h1, h2]; norm_num

/-! ### Helper lemmas about list maxima and scores -/

theorem maxQ_nil : maxQ [] = 0 := rfl

theorem maxQ_cons (x : ℚ) (l : List ℚ) : maxQ (x :: l) = max x (maxQ l) := rfl

theorem maxQ_nonneg (l : List ℚ) : 0 ≤ maxQ l := by
  induction l with
  | nil => exact le_refl 0
  | cons x xs ih => exact le_trans ih (by rw [maxQ_cons]; exact le_max_right x _)

theorem maxQ_append (l1 l2 : List ℚ) :
    maxQ (l1 ++ l2) = max (maxQ l1) (maxQ l2) := by
  induction l1 with
  | nil => simp [maxQ_nil]; exact maxQ_nonneg l2
  | cons x xs ih => simp only [List.cons_append, maxQ_cons, ih, max_assoc]

theorem le_maxQ_of_mem {x : ℚ} {l : List ℚ} (h : x ∈ l) : x ≤ maxQ l := by
  induction l with
  | nil => cases h
  | cons y ys ih =>
    rcases List.mem_cons.mp h with h1 | h1
    · rw [h1, maxQ_cons]; exact le_max_left y _
    · rw [maxQ_cons]; exact le_trans (ih h1) (le_max_right y _)

theorem maxQ_le {l : List ℚ} {b : ℚ} (h0 : 0 ≤ b) (h : ∀ x ∈ l, x ≤ b) :
    maxQ l ≤ b := by
  induction l with
  | nil => exact h0
  | cons y ys ih =>
    rw [maxQ_cons]
    exact max_le (h y (List.mem_cons_self y ys))
      (ih (fun x hx => h x (List.mem_cons_of_mem y hx)))

theorem strLength_data (s : String) : s.length = s.data.length := rfl

theorem eq_empty_of_length_zero {t : String} (h : t.length = 0) : t = "" := by
  cases t with
  | mk l =>
    cases l with
    | nil => rfl
    | cons c cs => simp [String.length] at h

theorem length_pos_of_ne_empty {t : String} (h : t ≠ "") : 0 < t.length :=
  Nat.pos_of_ne_zero (fun h0 => h (eq_empty_of_length_zero h0))

theorem utterScore_nonneg (t nu : String) : 0 ≤ utterScore t nu :=
  div_nonneg (Nat.cast_nonneg _) (Nat.cast_nonneg _)

theorem includesStr_length_le {t nu : String} (h : includesStr t nu = true) :
    nu.length ≤ t.length := by
  have hinf : nu.data <:+: t.data := of_decide_eq_true h
  exact hinf.length_le

theorem utterScore_le_one {t nu : String} (ht : t ≠ "")
    (h : includesStr t nu = true) : utterScore t nu ≤ 1 := by
  have hpos : (0 : ℚ) < (t.length : ℚ) := by
    exact_mod_cast length_pos_of_ne_empty ht
  rw [utterScore, div_le_one hpos]
  exact_mod_cast includesStr_length_le h

theorem includesStr_self (t : String) : includesStr t t = true :=
  decide_eq_true (List.infix_refl _)

theorem utterScore_self {t : String} (ht : t ≠ "") : utterScore t t = 1 := by
  have hpos : (0 : ℚ) < (t.length : ℚ) := by
    exact_mod_cast length_pos_of_ne_empty ht
  rw [utterScore]
  exact div_self (ne_of_gt hpos)

theorem mem_uttScoreList {t : String} {us : List String} {x : ℚ}
    (h : x ∈ uttScoreList t us) :
    ∃ u ∈ us, includesStr t (lowerStr u) = true ∧
      utterScore t (lowerStr u) = x := by
  rcases List.mem_filterMap.mp h with ⟨u, hu, hcase⟩
  by_cases hinc : includesStr t (lowerStr u) = true
  · rw [if_pos hinc] at hcase
    exact ⟨u, hu, hinc, Option.some_injective _ hcase⟩
  · rw [if_neg hinc] at hcase
    cases hcase

theorem uttScoreList_intro {t u : String} {us : List String} (hu : u ∈ us)
    (hi : includesStr t (lowerStr u) = true) :
    utterScore t (lowerStr u) ∈ uttScoreList t us :=
  List.mem_filterMap.mpr ⟨u, hu, by rw [if_pos hi]⟩

theorem mem_legacyScoreList {t lang : String} {cmds : List LegacyCommand}
    {x : ℚ} (h : x ∈ legacyScoreList t lang cmds) :
    ∃ c ∈ cmds, x ∈ uttScoreList t (cmdUtts lang c) := by
  rcases List.mem_flatten.mp h with ⟨l, hl, hx⟩
  rcases List.mem_map.mp hl with ⟨c, hc, rfl⟩
  exact ⟨c, hc, hx⟩

theorem legacyScoreList_le_one {t lang : String} {cmds : List LegacyCommand}
    (ht : t ≠ "") : ∀ x ∈ legacyScoreList t lang cmds, x ≤ 1 := by
  intro x hx
  rcases mem_legacyScoreList hx with ⟨c, _, hin⟩
  rcases mem_uttScoreList hin with ⟨u, _, hinc, hsc⟩
  rw [← hsc]
  exact utterScore_le_one ht hinc

theorem uttScoreList_le_one {t : String} {us : List String} (ht : t ≠ "") :
    ∀ x ∈ uttScoreList t us, x ≤ 1 := by
  intro x hx
  rcases mem_uttScoreList hx with ⟨u, _, hinc, hsc⟩
  rw [← hsc]
  exact utterScore_le_one ht hinc

/-! ### Characterization of the legacy scan -/

theorem scanUtts_spec (t lang : String) (c : LegacyCommand) :
    ∀ (us : List String) (best : ℚ) (bm : Option LegacyCommand),
    0 ≤ best →
    (bm = none → best = 0) →
    (∀ c', bm = some c' → attainsMax t lang c' best) →
    (∀ u ∈ us, u ∈ cmdUtts lang c) →
    (∃ r, scanUtts t c us best bm = (true, r) ∧ ∃ u ∈ us, t = lowerStr u) ∨
    (∃ best' bm', scanUtts t c us best bm = (false, best', bm') ∧
      (∀ u ∈ us, t ≠ lowerStr u) ∧
      best' = max best (maxQ (uttScoreList t us)) ∧
      0 ≤ best' ∧
      (bm' = none → best' = 0) ∧
      (∀ c', bm' = some c' → attainsMax t lang c' best')) := by
  intro us
  induction us with
  | nil =>
    intro best bm hb0 hbm hat _
    right
    refine ⟨best, bm, rfl, by simp, ?_, hb0, hbm, hat⟩
    simp [uttScoreList, maxQ_nil]
    exact hb0
  | cons u rest ih =>
    intro best bm hb0 hbm hat hsub
    have hsubr : ∀ v ∈ rest, v ∈ cmdUtts lang c :=
      fun v hv => hsub v (List.mem_cons_of_mem u hv)
    cases hbe : (t == lowerStr u) with
    | true =>
      left
      refine ⟨(best, bm), ?_, u, List.mem_cons_self u rest, ?_⟩
      · simp [scanUtts, hbe]
      · exact eq_of_beq hbe
    | false =>
      have hne1 : t ≠ lowerStr u := by
        intro hcontra
        rw [hcontra] at hbe
        simp at hbe
      cases hinc : includesStr t (lowerStr u) with
      | false =>
        have heq : scanUtts t c (u :: rest) best bm = scanUtts t c rest best bm := by
          simp [scanUtts, hbe, hinc]
        have hsl : uttScoreList t (u :: rest) = uttScoreList t rest := by
          simp [uttScoreList, hinc]
        rcases ih best bm hb0 hbm hat hsubr with ⟨r, hr, v, hv, hexact⟩ |
          ⟨best', bm', hr, hner, hbest', hb0', hbm', hat'⟩
        · left
          exact ⟨r, by rw [heq, hr], v, List.mem_cons_of_mem u hv, hexact⟩
        · right
          refine ⟨best', bm', by rw [heq, hr], ?_, by rw [hsl]; exact hbest',
            hb0', hbm', hat'⟩
          intro v hv
          rcases List.mem_cons.mp hv with h1 | h1
          · rw [h1]; exact hne1
          · exact hner v h1
      | true =>
        have hsl : uttScoreList t (u :: rest) =
            utterScore t (lowerStr u) :: uttScoreList t rest := by
          simp [uttScoreList, hinc]
        by_cases hgt : utterScore t (lowerStr u) > best
        · have heq : scanUtts t c (u :: rest) best bm =
              scanUtts t c rest (utterScore t (lowerStr u)) (some c) := by
            simp [scanUtts, hbe, hinc, hgt]
          have hb0' : 0 ≤ utterScore t (lowerStr u) := utterScore_nonneg t _
          have hat' : ∀ c', some c = some c' →
              attainsMax t lang c' (utterScore t (lowerStr u)) := by
            intro c' hc'
            cases hc'
            exact ⟨u, hsub u (List.mem_cons_self u rest), hinc, rfl⟩
          rcases ih (utterScore t (lowerStr u)) (some c) hb0'
              (fun h => by cases h) hat' hsubr with ⟨r, hr, v, hv, hexact⟩ |
            ⟨best', bm', hr, hner, hbest', hb0'', hbm', hat''⟩
          · left
            exact ⟨r, by rw [heq, hr], v, List.mem_cons_of_mem u hv, hexact⟩
          · right
            refine ⟨best', bm', by rw [heq, hr], ?_, ?_, hb0'', hbm', hat''⟩
            · intro v hv
              rcases List.mem_cons.mp hv with h1 | h1
              · rw [h1]; exact hne1
              · exact hner v h1
            · rw [hsl, maxQ_cons, ← max_assoc, max_eq_right (le_of_lt hgt)]
              exact hbest'
        · have heq : scanUtts t c (u :: rest) best bm =
              scanUtts t c rest best bm := by
            simp [scanUtts, hbe, hinc, hgt]
          rcases ih best bm hb0 hbm hat hsubr with ⟨r, hr, v, hv, hexact⟩ |
            ⟨best', bm', hr, hner, hbest', hb0', hbm', hat'⟩
          · left
            exact ⟨r, by rw [heq, hr], v, List.mem_cons_of_mem u hv, hexact⟩
          · right
            refine ⟨best', bm', by rw [heq, hr], ?_, ?_, hb0', hbm', hat'⟩
            · intro v hv
              rcases List.mem_cons.mp hv with h1 | h1
              · rw [h1]; exact hne1
              · exact hner v h1
            · rw [hsl, maxQ_cons, ← max_assoc,
                max_eq_left (not_lt.mp hgt)]
              exact hbest'

theorem scanCmds_spec (t lang : String) (ht : t ≠ "") :
    ∀ (cs : List LegacyCommand) (best : ℚ) (bm : Option LegacyCommand),
    0 ≤ best → best ≤ 1 →
    (bm = none → best = 0) →
    (∀ c', bm = some c' → attainsMax t lang c' best) →
    ((∃ c, scanCmds t lang cs best bm = some c) ↔
        max best (maxQ (legacyScoreList t lang cs)) > 1 / 2) ∧
    (∀ c, scanCmds t lang cs best bm = some c →
        attainsMax t lang c (max best (maxQ (legacyScoreList t lang cs)))) := by
  intro cs
  induction cs with
  | nil =>
    intro best bm hb0 hb1 hbm hat
    have hsl : legacyScoreList t lang [] = [] := rfl
    rw [hsl, maxQ_nil, max_eq_left hb0]
    constructor
    · constructor
      · rintro ⟨c, hc⟩
        rw [scanCmds] at hc
        by_cases hgt : best > 1 / 2
        · exact hgt
        · rw [if_neg hgt] at hc
          cases hc
      · intro hgt
        cases hbmc : bm with
        | none => rw [hbm hbmc] at hgt; norm_num at hgt
        | some c =>
          refine ⟨c, ?_⟩
          rw [scanCmds, if_pos hgt]
    · intro c hc
      rw [scanCmds] at hc
      by_cases hgt : best > 1 / 2
      · rw [if_pos hgt] at hc
        exact hat c hc
      · rw [if_neg hgt] at hc
        cases hc
  | cons c cs ih =>
    intro best bm hb0 hb1 hbm hat
    have hsl : legacyScoreList t lang (c :: cs) =
        uttScoreList t (cmdUtts lang c) ++ legacyScoreList t lang cs := by
      simp [legacyScoreList]
    cases hlk : lookupUtter c.utterances lang with
    | none =>
      have heq : scanCmds t lang (c :: cs) best bm =
          scanCmds t lang cs best bm := by
        simp [scanCmds, hlk]
      have hcu : cmdUtts lang c = [] := by simp [cmdUtts, hlk]
      have hsl2 : legacyScoreList t lang (c :: cs) = legacyScoreList t lang cs := by
        rw [hsl, hcu]
        simp [uttScoreList]
      rw [heq, hsl2]
      exact ih best bm hb0 hb1 hbm hat
    | some us =>
      have hcu : cmdUtts lang c = us := by simp [cmdUtts, hlk]
      have hsub : ∀ u ∈ us, u ∈ cmdUtts lang c := by rw [hcu]; exact fun u hu => hu
      rcases scanUtts_spec t lang c us best bm hb0 hbm hat hsub with
        ⟨r, hr, u, hu, hexact⟩ | ⟨best', bm', hr, _, hbest', hb0', hbm', hat'⟩
      · -- exact match: the scan returns c immediately and the maximum is 1
        have heq : scanCmds t lang (c :: cs) best bm = some c := by
          simp [scanCmds, hlk, hr]
        have hincu : includesStr t (lowerStr u) = true := by
          rw [← hexact]
          exact includesStr_self t
        have hsc1 : utterScore t (lowerStr u) = 1 := by
          rw [← hexact]
          exact utterScore_self ht
        have hmem1 : (1 : ℚ) ∈ legacyScoreList t lang (c :: cs) := by
          rw [hsl]
          apply List.mem_append_left
          rw [← hsc1]
          exact uttScoreList_intro (by rw [hcu]; exact hu) hincu
        have hM1 : max best (maxQ (legacyScoreList t lang (c :: cs))) = 1 := by
          apply le_antisymm
          · exact max_le hb1
              (maxQ_le (by norm_num) (legacyScoreList_le_one ht))
          · exact le_trans (le_maxQ_of_mem hmem1) (le_max_right best _)
        constructor
        · rw [hM1]
          constructor
          · intro _
            norm_num
          · intro _
            exact ⟨c, heq⟩
        · intro c0 hc0
          rw [heq] at hc0
          cases hc0
          rw [hM1]
          refine ⟨u, by rw [hcu]; exact hu, hincu, hsc1⟩
      · -- no exact match in this command: continue with updated accumulator
        have heq : scanCmds t lang (c :: cs) best bm =
            scanCmds t lang cs best' bm' := by
          simp [scanCmds, hlk, hr]
        have hb1' : best' ≤ 1 := by
          rw [hbest']
          exact max_le hb1
            (maxQ_le (by norm_num) (uttScoreList_le_one ht))
        have hMeq : max best' (maxQ (legacyScoreList t lang cs)) =
            max best (maxQ (legacyScoreList t lang (c :: cs))) := by
          rw [hbest', hsl, maxQ_append, max_assoc, hcu]
        rw [heq, ← hMeq]
        exact ih best' bm' hb0' hb1' hbm' hat'

theorem normText_empty : normText "" = "" := rfl

/-- Claim C1: for every transcript and language such that no intent-table
utterance is exactly equal to or contained in the normalized transcript,
the legacy-command fallback of the matcher returns a command iff the
maximum containment score (utterance length over transcript length, taken
over all legacy utterances that are substrings of the transcript) is
strictly greater than one half, and in that case the returned command
attains that maximum. -/
theorem claim_C1_legacy_threshold (intents : List IntentEntry)
    (cmds : List LegacyCommand) (text lang : String)
    (ht : normText text ≠ "")
    (hI : ∀ i ∈ intents, intentMatches (normText text) lang i = false) :
    ((∃ c, findMatchingCommand intents cmds text lang = MatchOut.legacyM c) ↔
        maxLegacyScore (normText text) lang cmds > 1 / 2) ∧
    (∀ c, findMatchingCommand intents cmds text lang = MatchOut.legacyM c →
        attainsMax (normText text) lang c
          (maxLegacyScore (normText text) lang cmds)) := by
  have htext : text ≠ "" := by
    intro h
    rw [h, normText_empty] at ht
    exact ht rfl
  have hfi : findIntent intents (normText text) lang = none := by
    apply List.find?_eq_none.mpr
    intro i hi
    simp [hI i hi]
  have hfm : ∀ c, (findMatchingCommand intents cmds text lang =
      MatchOut.legacyM c ↔
      scanCmds (normText text) lang cmds 0 none = some c) := by
    intro c
    rw [findMatchingCommand, if_neg htext, hfi]
    cases hsc : scanCmds (normText text) lang cmds 0 none with
    | none => simp
    | some c0 => simp
  have hmain := scanCmds_spec (normText text) lang ht cmds 0 none
    (le_refl 0) (by norm_num) (fun _ => rfl) (fun c' h => by cases h)
  have hmax : max (0 : ℚ) (maxQ (legacyScoreList (normText text) lang cmds)) =
      maxLegacyScore (normText text) lang cmds :=
    max_eq_right (maxQ_nonneg _)
  constructor
  · rw [← hmax]
    rw [← hmain.1]
    exact exists_congr hfm
  · intro c hc
    have h2 := hmain.2 c ((hfm c).mp hc)
    rwa [hmax] at h2

/-- Splitting characterization of the first list element satisfying a
Boolean predicate. -/
theorem find?_first_split {α : Type} {p : α → Bool} :
    ∀ {l : List α} {a : α}, List.find? p l = some a →
    ∃ pre post, l = pre ++ a :: post ∧ p a = true ∧
      ∀ b ∈ pre, p b = false := by
  intro l
  induction l with
  | nil => intro a h; cases h
  | cons x xs ih =>
    intro a h
    cases hx : p x with
    | true =>
      rw [List.find?_cons_of_pos _ hx] at h
      cases h
      exact ⟨[], xs, rfl, hx, fun b hb => by cases hb⟩
    | false =>
      rw [List.find?_cons_of_neg _ (by simp [hx])] at h
      rcases ih h with ⟨pre, post, hl, hp, hpre⟩
      refine ⟨x :: pre, post, by rw [hl]; rfl, hp, ?_⟩
      intro b hb
      rcases List.mem_cons.mp hb with h1 | h1
      · rw [h1]; exact hx
      · exact hpre b h1

/-- Claim C2: the intent-table pass runs first and in catalog order; when
some catalog intent matches (exactly or by containment, with fallback to
the default language) the matcher returns the first such intent with no
scoring, and the legacy containment-scored pass is consulted only when the
intent-table pass yields nothing, so an intent-table match always beats
any containment-scored legacy match. -/
theorem claim_C2_intent_pass_first (intents : List IntentEntry)
    (cmds : List LegacyCommand) (text lang : String) (ht : text ≠ "") :
    (∀ i, findIntent intents (normText text) lang = some i →
        findMatchingCommand intents cmds text lang = MatchOut.intentM i ∧
        ∃ pre post, intents = pre ++ i :: post ∧
          intentMatches (normText text) lang i = true ∧
          ∀ j ∈ pre, intentMatches (normText text) lang j = false) ∧
    (∀ c, findMatchingCommand intents cmds text lang = MatchOut.legacyM c →
        findIntent intents (normText text) lang = none) := by
  constructor
  · intro i hi
    constructor
    · rw [findMatchingCommand, if_neg ht, hi]
    · exact find?_first_split hi
  · intro c hc
    cases hfi : findIntent intents (normText text) lang with
    | none => rfl
    | some i =>
      rw [findMatchingCommand, if_neg ht, hfi] at hc
      cases hc

/-- Session-level state of the voice-control provider: the listening and
processing flags, the always-listening preference, the capture resources
(speech recognition handle, media recorder, keep-alive timer) and the
usage counter mirrored by the hook. -/
inductive RecState where
  | noRecorder : RecState
  | inactive : RecState
  | recording : RecState
deriving DecidableEq

structure VCState where
  isListening : Bool
  isProcessing : Bool
  alwaysListening : Bool
  recognition : Bool
  recorder : RecState
  keepAlive : Bool
  usageCount : Nat
  confidence : ℚ
deriving DecidableEq

/-- The matcher as invoked from the provider: the callback closes over no
mutable state (its dependency array is empty and the catalogs are module
constants), so the ambient session state and the current time are
parameters that the computation never reads. -/
def findMatchingCommandRun (session : VCState) (now : Nat)
    (intents : List IntentEntry) (cmds : List LegacyCommand)
    (text lang : String) : MatchOut :=
  findMatchingCommand intents cmds text lang

/-- Claim C3: the matcher is a pure, deterministic function of transcript,
language and catalog state: two calls made from arbitrarily different
session states at arbitrarily different times return the same result. -/
theorem claim_C3_matcher_deterministic (s1 s2 : VCState) (n1 n2 : Nat)
    (intents : List IntentEntry) (cmds : List LegacyCommand)
    (text lang : String) :
    findMatchingCommandRun s1 n1 intents cmds text lang =
      findMatchingCommandRun s2 n2 intents cmds text lang := rfl

/-- Witness for claim C1, on the example of the specification: against the
transcript "please pause now" a legacy catalog whose only utterance is
"pause" (score 5/16) yields no command, while a catalog also holding
"pause now" (score 9/16) yields one. -/
theorem claim_C1_witness :
    (¬ ∃ c, findMatchingCommand []
        [⟨"pause", 1, [("en", ["pause"])]⟩] "please pause now" "en" =
        MatchOut.legacyM c) ∧
    (∃ c, findMatchingCommand []
        [⟨"pause", 1, [("en", ["pause", "pause now"])]⟩]
        "please pause now" "en" = MatchOut.legacyM c) := by
  have enorm : normText "please pause now" = "please pause now" := by decide
  have hs1 : utterScore "please pause now" (lowerStr "pause") = 5 / 16 := by
    have h1 : (lowerStr "pause").length = 5 := by decide
    have h2 : ("please pause now").length = 16 := rfl
    rw [utterScore, h1, h2]
    norm_num
  have hs2 : utterScore "please pause now" (lowerStr "pause now") = 9 / 16 := by
    have h1 : (lowerStr "pause now").length = 9 := by decide
    have h2 : ("please pause now").length = 16 := rfl
    rw [utterScore, h1, h2]
    norm_num
  have hm1 : maxLegacyScore "please pause now" "en"
      [⟨"pause", 1, [("en", ["pause"])]⟩] = 5 / 16 := by
    have hl : legacyScoreList "please pause now" "en"
        [⟨"pause", 1, [("en", ["pause"])]⟩] =
        [utterScore "please pause now" (lowerStr "pause")] := rfl
    rw [maxLegacyScore, hl, maxQ_cons, maxQ_nil, hs1]
    exact max_eq_left (by norm_num)
  have hm2 : maxLegacyScore "please pause now" "en"
      [⟨"pause", 1, [("en", ["pause", "pause now"])]⟩] = 9 / 16 := by
    have hl : legacyScoreList "please pause now" "en"
        [⟨"pause", 1, [("en", ["pause", "pause now"])]⟩] =
        [utterScore "please pause now" (lowerStr "pause"),
          utterScore "please pause now" (lowerStr "pause now")] := rfl
    rw [maxLegacyScore, hl, maxQ_cons, maxQ_cons, maxQ_nil, hs1, hs2]
    rw [max_eq_left (by norm_num : (0:ℚ) ≤ 9 / 16)]
    exact max_eq_right (by norm_num)
  constructor
  · intro h
    have hgt := (claim_C1_legacy_threshold []
      [⟨"pause", 1, [("en", ["pause"])]⟩] "please pause now" "en"
      (by decide)
      (by intro i hi; cases hi)).1.mp h
    rw [enorm, hm1] at hgt
    norm_num at hgt
  · exact (claim_C1_legacy_threshold []
      [⟨"pause", 1, [("en", ["pause", "pause now"])]⟩] "please pause now" "en"
      (by decide)
      (by intro i hi; cases hi)).1.mpr
      (by rw [enorm, hm2]; norm_num)

/-- Witness for claim C2: with an intent table holding a pause intent and
a legacy catalog also matching the word pause, the matcher returns the
intent-table entry, and the first matching entry of the table at that. -/
theorem claim_C2_witness :
    findMatchingCommand [⟨"PauseIntent", [("en", ["pause"])]⟩]
      [⟨"pause", 1, [("en", ["pause"])]⟩] "pause please" "en" =
      MatchOut.intentM ⟨"PauseIntent", [("en", ["pause"])]⟩ :=
  ((claim_C2_intent_pass_first [⟨"PauseIntent", [("en", ["pause"])]⟩]
      [⟨"pause", 1, [("en", ["pause"])]⟩] "pause please" "en"
      (by decide)).1
    ⟨"PauseIntent", [("en", ["pause"])]⟩ (by decide)).1

/-! ### Player dispatcher (player screen) -/

/-- The slice of the video player facade touched by the seek and volume
handlers: current position, duration and volume. -/
structure PlayerFacade where
  currentTime : ℚ
  duration : ℚ
  volume : ℚ
deriving DecidableEq

/-- skipForward of the player screen: seek to the current position plus
the skip amount, clamped above by the duration. -/
def skipForward (p : PlayerFacade) (seconds : ℚ) : PlayerFacade :=
  { p with currentTime := min (p.currentTime + seconds) p.duration }

/-- skipBackward of the player screen: seek to the current position minus
the skip amount, clamped below by zero. -/
def skipBackward (p : PlayerFacade) (seconds : ℚ) : PlayerFacade :=
  { p with currentTime := max (p.currentTime - seconds) 0 }

/-- setVideoVolume of the player screen: clamp the requested volume into
the unit interval before writing it. -/
def setVideoVolume (p : PlayerFacade) (v : ℚ) : PlayerFacade :=
  { p with volume := max 0 (min 1 v) }

/-- The volume-up dispatcher action: current volume plus one fifth,
through setVideoVolume. -/
def volumeUp (p : PlayerFacade) : PlayerFacade :=
  setVideoVolume p (p.volume + 1 / 5)

/-- The volume-down dispatcher action: current volume minus one fifth,
through setVideoVolume. -/
def volumeDown (p : PlayerFacade) : PlayerFacade :=
  setVideoVolume p (p.volume - 1 / 5)

/-- Claim C4: every dispatcher effect on the player is clamped to its
legal range: from a volume in the unit interval, volume-up yields
min 1 (v + 0.2) and volume-down yields max 0 (v - 0.2), both again in
the unit interval; from a valid position, forward and rewind seek to
min (p + n) d and max (p - n) 0 respectively, both within zero and the
duration. -/
theorem claim_C4_dispatcher_clamped (p : PlayerFacade) (n : ℚ)
    (hv0 : 0 ≤ p.volume) (hv1 : p.volume ≤ 1)
    (hp0 : 0 ≤ p.currentTime) (hpd : p.currentTime ≤ p.duration)
    (hn : 0 ≤ n) :
    (volumeUp p).volume = min 1 (p.volume + 1 / 5) ∧
    (volumeDown p).volume = max 0 (p.volume - 1 / 5) ∧
    0 ≤ (volumeUp p).volume ∧ (volumeUp p).volume ≤ 1 ∧
    0 ≤ (volumeDown p).volume ∧ (volumeDown p).volume ≤ 1 ∧
    (skipForward p n).currentTime = min (p.currentTime + n) p.duration ∧
    (skipBackward p n).currentTime = max (p.currentTime - n) 0 ∧
    0 ≤ (skipForward p n).currentTime ∧
    (skipForward p n).currentTime ≤ p.duration ∧
    0 ≤ (skipBackward p n).currentTime ∧
    (skipBackward p n).currentTime ≤ p.duration := by
  have hup : (volumeUp p).volume = min 1 (p.volume + 1 / 5) := by
    rw [volumeUp, setVideoVolume]
    exact max_eq_right (le_min (by norm_num) (by linarith))
  have hdn : (volumeDown p).volume = max 0 (p.volume - 1 / 5) := by
    rw [volumeDown, setVideoVolume]
    rw [min_eq_right (by linarith : p.volume - 1 / 5 ≤ 1)]
  refine ⟨hup, hdn, ?_, ?_, ?_, ?_, rfl, rfl, ?_, ?_, ?_, ?_⟩
  · rw [hup]; exact le_min (by norm_num) (by linarith)
  · rw [hup]; exact min_le_left 1 _
  · rw [hdn]; exact le_max_left 0 _
  · rw [hdn]; exact max_le (by norm_num) (by linarith)
  · rw [skipForward]; exact le_min (by linarith) (by linarith)
  · rw [skipForward]; exact min_le_right _ _
  · rw [skipBackward]; exact le_max_right _ 0
  · rw [skipBackward]; exact max_le (by linarith) (by linarith)

/-- Witness for claim C4, on the examples of the specification: at volume
0.9 volume-up yields exactly 1 (not 1.1), and at position 5 with duration
20, rewinding 30 seconds yields position 0, never a negative one. -/
theorem claim_C4_witness :
    (volumeUp ⟨5, 20, 9 / 10⟩).volume = 1 ∧
    (skipBackward ⟨5, 20, 9 / 10⟩ 30).currentTime = 0 := by
  have h := claim_C4_dispatcher_clamped ⟨5, 20, 9 / 10⟩ 30
    (by norm_num) (by norm_num) (by norm_num) (by norm_num) (by norm_num)
  constructor
  · rw [h.1]; norm_num
  · rw [h.2.2.2.2.2.2.2.1]; norm_num

/-! ### Listening state machine (voice-control provider) -/

/-- Phase of the listening state machine as driven by the listening flag:
the machine is Listening exactly while a capture session is wanted, and
Idle otherwise.  The processing flag of the provider tracks an in-flight
transcription and is a separate sub-state. -/
inductive ListenPhase where
  | Idle : ListenPhase
  | Listening : ListenPhase
deriving DecidableEq

def listenPhase (s : VCState) : ListenPhase :=
  if s.isListening then ListenPhase.Listening else ListenPhase.Idle

/-- Number of active capture sessions held by the provider: an attached
speech-recognition handle or a recorder in the recording state. -/
def sessionCount (s : VCState) : Nat :=
  (if s.recognition then 1 else 0) +
    (if s.recorder = RecState.recording then 1 else 0)

/-- The single-active-session invariant: never more than one capture
session, and none at all while not listening. -/
def SingleSession (s : VCState) : Prop :=
  sessionCount s ≤ 1 ∧ (s.isListening = false → sessionCount s = 0)

instance (s : VCState) : Decidable (SingleSession s) := by
  unfold SingleSession
  infer_instance

/-- startListening: returns immediately when already listening; otherwise
raises the listening flag, clears the processing flag, opens exactly one
capture session (speech recognition on platforms that provide it, a media
recording otherwise) and arms the keep-alive timer when always-listening
is set. -/
def startListening (hasSpeechRec : Bool) (s : VCState) : VCState :=
  if s.isListening then s
  else
    let s1 := { s with isListening := true, isProcessing := false }
    let s2 :=
      if hasSpeechRec then { s1 with recognition := true }
      else { s1 with recorder := RecState.recording }
    if s.alwaysListening then { s2 with keepAlive := true } else s2

/-- stopListening: clears the listening flag, detaches and stops the
speech-recognition handle, stops the recorder when it is recording, and
cancels the keep-alive timer; it never inspects the current phase. -/
def stopListening (s : VCState) : VCState :=
  let s1 := { s with isListening := false }
  let s2 := { s1 with recognition := false }
  let s3 :=
    if s2.recorder = RecState.recording then
      { s2 with recorder := RecState.inactive }
    else s2
  { s3 with keepAlive := false }

theorem stopListening_fields (s : VCState) :
    (stopListening s).isListening = false ∧
    (stopListening s).recognition = false ∧
    (stopListening s).recorder ≠ RecState.recording ∧
    (stopListening s).keepAlive = false := by
  unfold stopListening
  by_cases h : s.recorder = RecState.recording
  · simp [h]
  · simp [h]

/-- Claim C5: from every state, stopListening moves the listening machine
to Idle, cancels the keep-alive timer and releases every capture session
(speech recognition detached, recorder no longer recording); it is
idempotent, hence harmless when already Idle, and a subsequent
startListening proceeds cleanly into Listening with exactly one fresh
capture session. -/
theorem claim_C5_stop_unconditional (s : VCState) (hasSpeechRec : Bool) :
    listenPhase (stopListening s) = ListenPhase.Idle ∧
    (stopListening s).keepAlive = false ∧
    (stopListening s).recognition = false ∧
    (stopListening s).recorder ≠ RecState.recording ∧
    sessionCount (stopListening s) = 0 ∧
    stopListening (stopListening s) = stopListening s ∧
    listenPhase (startListening hasSpeechRec (stopListening s)) =
      ListenPhase.Listening ∧
    sessionCount (startListening hasSpeechRec (stopListening s)) = 1 := by
  obtain ⟨h1, h2, h3, h4⟩ := stopListening_fields s
  have hcount : sessionCount (stopListening s) = 0 := by
    unfold sessionCount
    rw [h2, if_neg h3]
    simp
  refine ⟨by rw [listenPhase, h1]; rfl, h4, h2, h3, hcount, ?_, ?_, ?_⟩
  · unfold stopListening
    by_cases h : s.recorder = RecState.recording <;> simp [h]
  · rw [startListening, if_neg (by rw [h1]; intro h; cases h)]
    cases hrec : hasSpeechRec <;>
      cases hal : (stopListening s).alwaysListening <;>
        simp [listenPhase, hrec, hal]
  · rw [startListening, if_neg (by rw [h1]; intro h; cases h)]
    cases hrec : hasSpeechRec <;>
      cases hal : (stopListening s).alwaysListening <;>
        simp [sessionCount, hrec, hal, h2, h3, if_neg h3]

/-- Claim C6: starting while already listening changes nothing (no second
capture session, no state change, no queued start), and both operations of
the listening machine preserve the single-active-session invariant. -/
theorem claim_C6_single_session (hasSpeechRec : Bool) (s s' : VCState)
    (h : s.isListening = true) (hInv : SingleSession s') :
    startListening hasSpeechRec s = s ∧
    SingleSession (startListening hasSpeechRec s') ∧
    SingleSession (stopListening s') := by
  refine ⟨by rw [startListening, if_pos h], ?_, ?_⟩
  · by_cases hl : s'.isListening = true
    · rw [startListening, if_pos hl]
      exact hInv
    · have hl' : s'.isListening = false := by
        cases hli : s'.isListening
        · rfl
        · exact absurd hli hl
      have hzero := hInv.2 hl'
      unfold sessionCount at hzero
      have hrec0 : s'.recognition = false := by
        cases hr : s'.recognition
        · rfl
        · rw [hr] at hzero; simp at hzero
      have hrd0 : s'.recorder ≠ RecState.recording := by
        intro hr
        rw [hr] at hzero
        simp at hzero
      rw [startListening, if_neg (by rw [hl']; intro hcon; cases hcon)]
      constructor <;>
        cases hrc : hasSpeechRec <;> cases hal : s'.alwaysListening <;>
          simp [sessionCount, hrc, hal, hrec0, if_neg hrd0]
  · obtain ⟨h1, h2, h3, h4⟩ := stopListening_fields s'
    constructor
    · unfold sessionCount
      rw [h2, if_neg h3]
      simp
    · intro _
      unfold sessionCount
      rw [h2, if_neg h3]
      simp

/-- Witness for claim C6: starting during an already-listening state with
an attached recognition session is a strict no-op, and the invariant holds
after the operations on a concrete idle state. -/
theorem claim_C6_witness :
    startListening true
      ⟨true, false, false, true, RecState.noRecorder, false, 0, 0⟩ =
      ⟨true, false, false, true, RecState.noRecorder, false, 0, 0⟩ ∧
    SingleSession (startListening true
      ⟨false, false, false, false, RecState.noRecorder, false, 0, 0⟩) ∧
    SingleSession (stopListening
      ⟨false, false, false, false, RecState.noRecorder, false, 0, 0⟩) := by
  have h := claim_C6_single_session true
    ⟨true, false, false, true, RecState.noRecorder, false, 0, 0⟩
    ⟨false, false, false, false, RecState.noRecorder, false, 0, 0⟩
    rfl (by constructor <;> decide)
  exact h

/-! ### Command processing (voice-control provider) -/

/-- The dispatch decision of processCommand: guard on the empty raw
transcript, normalize, match; when a command is found it is forwarded to
execution on both sides of the confidence test (the branch on the 0.3
threshold executes the command in either arm, the low-confidence arm
merely logging first), and nothing is dispatched when the matcher finds
nothing. -/
def processCommandDispatch (intents : List IntentEntry)
    (cmds : List LegacyCommand) (lang text : String) (confidence : ℚ) :
    Option MatchOut :=
  if text = "" then none
  else
    match findMatchingCommand intents cmds (normText text) lang with
    | MatchOut.noMatch => none
    | m => if confidence ≥ 3 / 10 then some m else some m

/-- Claim C7: the low-confidence threshold of 0.3 is advisory, not
gating: whenever the matcher finds a command for the final transcript,
processCommand dispatches it for every confidence value, including values
below 0.3; the dispatch decision depends only on the match result, never
on the confidence. -/
theorem claim_C7_confidence_advisory (intents : List IntentEntry)
    (cmds : List LegacyCommand) (lang text : String) (confidence : ℚ)
    (hne : text ≠ "")
    (hm : findMatchingCommand intents cmds (normText text) lang ≠
      MatchOut.noMatch) :
    processCommandDispatch intents cmds lang text confidence =
      some (findMatchingCommand intents cmds (normText text) lang) ∧
    ∀ confidence', processCommandDispatch intents cmds lang text confidence =
      processCommandDispatch intents cmds lang text confidence' := by
  have hkey : ∀ conf : ℚ, processCommandDispatch intents cmds lang text conf =
      some (findMatchingCommand intents cmds (normText text) lang) := by
    intro conf
    rw [processCommandDispatch, if_neg hne]
    cases hfm : findMatchingCommand intents cmds (normText text) lang with
    | noMatch => exact absurd hfm hm
    | intentM i => by_cases hc : conf ≥ 3 / 10 <;> simp [hc]
    | legacyM c => by_cases hc : conf ≥ 3 / 10 <;> simp [hc]
  exact ⟨hkey confidence, fun conf' => (hkey confidence).trans (hkey conf').symm⟩

/-- Witness for claim C7: a final transcript matching a pause intent is
dispatched even at confidence 0.1, far below the 0.3 threshold. -/
theorem claim_C7_witness :
    processCommandDispatch [⟨"PauseIntent", [("en", ["pause"])]⟩] []
      "en" "pause" (1 / 10) =
      some (MatchOut.intentM ⟨"PauseIntent", [("en", ["pause"])]⟩) := by
  have h := (claim_C7_confidence_advisory [⟨"PauseIntent", [("en", ["pause"])]⟩]
    [] "en" "pause" (1 / 10) (by decide) (by decide)).1
  rw [h]
  have hfm : findMatchingCommand [⟨"PauseIntent", [("en", ["pause"])]⟩] []
      (normText "pause") "en" =
      MatchOut.intentM ⟨"PauseIntent", [("en", ["pause"])]⟩ := by decide
  rw [hfm]

/-! ### Custom-command form (player screen) -/

/-- A user-defined custom command of the player screen. -/
structure CustomCommand where
  id : String
  name : String
  triggers : List String
  action : String
deriving DecidableEq

/-- The slice of the player screen state touched by saveCustomCommand:
the stored list of custom commands and the form fields. -/
structure CCFormState where
  customCommands : List CustomCommand
  commandName : String
  commandAction : String
  editingCommand : Option CustomCommand
  showCustomCommandModal : Bool
deriving DecidableEq

/-- Outcome reported to the user by saveCustomCommand. -/
inductive SaveOutcome where
  | errFill : SaveOutcome
  | errDuplicate : SaveOutcome
  | okAdded : SaveOutcome
  | okUpdated : SaveOutcome
deriving DecidableEq

/-- saveCustomCommand of the player screen: reject synchronously when the
trimmed name or action is empty, or when adding (not editing) under a name
already taken case-insensitively; otherwise append (or replace when
editing) the new command whose single trigger is the lowercased name, and
reset the form.  The fresh identifier stands for Date.now. -/
def saveCustomCommand (freshId : String) (st : CCFormState) :
    SaveOutcome × CCFormState :=
  if trimStr st.commandName = "" ∨ trimStr st.commandAction = "" then
    (SaveOutcome.errFill, st)
  else if st.editingCommand = none ∧ st.customCommands.any
      (fun c => lowerStr c.name == lowerStr st.commandName) then
    (SaveOutcome.errDuplicate, st)
  else
    let newCommand : CustomCommand :=
      { id := match st.editingCommand with
              | some e => e.id
              | none => freshId,
        name := st.commandName,
        triggers := [lowerStr st.commandName],
        action := st.commandAction }
    let cmds := match st.editingCommand with
      | some e => st.customCommands.map
          (fun c => if c.id == e.id then newCommand else c)
      | none => st.customCommands ++ [newCommand]
    (match st.editingCommand with
     | some _ => SaveOutcome.okUpdated
     | none => SaveOutcome.okAdded,
     { customCommands := cmds, commandName := "", commandAction := "",
       editingCommand := none, showCustomCommandModal := false })

/-- Case-insensitive uniqueness of custom command names. -/
def namesUniqueCI (l : List CustomCommand) : Prop :=
  l.Pairwise (fun a b => lowerStr a.name ≠ lowerStr b.name)

/-- Claim C8: while adding (not editing), a save whose name collides
case-insensitively with an existing custom command is rejected, as is a
save with an empty (trimmed) name or action; every rejection is
synchronous, reports an error outcome, and leaves the state untouched;
and a successful add preserves case-insensitive uniqueness of the stored
names. -/
theorem claim_C8_custom_save (freshId : String) (st : CCFormState) :
    ((trimStr st.commandName = "" ∨ trimStr st.commandAction = "") →
      saveCustomCommand freshId st = (SaveOutcome.errFill, st)) ∧
    (st.editingCommand = none →
      trimStr st.commandName ≠ "" → trimStr st.commandAction ≠ "" →
      (∃ c ∈ st.customCommands, lowerStr c.name = lowerStr st.commandName) →
      saveCustomCommand freshId st = (SaveOutcome.errDuplicate, st)) ∧
    (st.editingCommand = none → namesUniqueCI st.customCommands →
      namesUniqueCI (saveCustomCommand freshId st).2.customCommands) := by
  refine ⟨?_, ?_, ?_⟩
  · intro h
    rw [saveCustomCommand, if_pos h]
  · intro hed hn ha hdup
    rw [saveCustomCommand, if_neg (by push_neg; exact ⟨hn, ha⟩), if_pos]
    refine ⟨hed, ?_⟩
    rcases hdup with ⟨c, hc, hname⟩
    exact List.any_eq_true.mpr ⟨c, hc, beq_iff_eq.mpr hname⟩
  · intro hed huniq
    by_cases hfill : trimStr st.commandName = "" ∨ trimStr st.commandAction = ""
    · rw [saveCustomCommand, if_pos hfill]
      exact huniq
    · by_cases hdup : st.editingCommand = none ∧ st.customCommands.any
          (fun c => lowerStr c.name == lowerStr st.commandName)
      · rw [saveCustomCommand, if_neg hfill, if_pos hdup]
        exact huniq
      · rw [saveCustomCommand, if_neg hfill, if_neg hdup]
        have hnodup : ∀ c ∈ st.customCommands,
            lowerStr c.name ≠ lowerStr st.commandName := by
          intro c hc hname
          exact hdup ⟨hed, List.any_eq_true.mpr ⟨c, hc, beq_iff_eq.mpr hname⟩⟩
        rw [hed]
        unfold namesUniqueCI
        apply List.pairwise_append.mpr
        refine ⟨huniq, List.pairwise_singleton _ _, ?_⟩
        intro a ha b hb
        rcases List.mem_singleton.mp hb with rfl
        exact hnodup a ha
  
/-- Witness for claim C8: adding the name Play while a command named play
exists is rejected with no state change, an empty name is rejected, and
uniqueness is preserved by a successful add. -/
theorem claim_C8_witness :
    saveCustomCommand "9"
      ⟨[⟨"1", "play", ["play"], "play"⟩], "Play", "next", none, true⟩ =
      (SaveOutcome.errDuplicate,
        ⟨[⟨"1", "play", ["play"], "play"⟩], "Play", "next", none, true⟩) ∧
    saveCustomCommand "9" ⟨[], "  ", "next", none, true⟩ =
      (SaveOutcome.errFill, ⟨[], "  ", "next", none, true⟩) ∧
    namesUniqueCI (saveCustomCommand "9"
      ⟨[⟨"1", "play", ["play"], "play"⟩], "Stop", "stop", none, true⟩).2.customCommands := by
  refine ⟨?_, ?_, ?_⟩
  · exact (claim_C8_custom_save "9"
      ⟨[⟨"1", "play", ["play"], "play"⟩], "Play", "next", none, true⟩).2.1
      rfl (by decide) (by decide)
      ⟨⟨"1", "play", ["play"], "play"⟩, by simp, by decide⟩
  · exact (claim_C8_custom_save "9" ⟨[], "  ", "next", none, true⟩).1
      (Or.inl (by decide))
  · exact (claim_C8_custom_save "9"
      ⟨[⟨"1", "play", ["play"], "play"⟩], "Stop", "stop", none, true⟩).2.2
      rfl (by unfold namesUniqueCI; exact List.pairwise_singleton _ _)

/-! ### Storage provider -/

/-- Leading ASCII-letter test, the embedding of the regular expression
match on a leading character in the ranges a-z or A-Z. -/
def startsWithAsciiLetter (s : String) : Bool :=
  match s.data with
  | [] => false
  | ch :: _ =>
    (('a' ≤ ch) && (ch ≤ 'z')) || (('A' ≤ ch) && (ch ≤ 'Z'))

/-- The corruption heuristic of the storage provider getItem: after
trimming, the value contains one of the markers object Object, undefined
or NaN, or starts with an ASCII letter, or contains neither an opening
brace nor an opening bracket while being longer than ten characters. -/
def corruptedHeuristic (data : String) : Bool :=
  let c := trimStr data
  includesStr c "object Object" || includesStr c "undefined" ||
    includesStr c "NaN" || startsWithAsciiLetter c ||
    (!(includesStr c "\x7b") && !(includesStr c "[") && decide (c.length > 10))

/-- getItem of the storage provider over a snapshot of the backing
key-value store: reject blank keys, look the trimmed key up, and when the
stored value is nonempty and the heuristic flags it, remove the key and
return nothing; otherwise return the stored value. -/
def getItem (key : String) (store : List (String × String)) :
    Option String × List (String × String) :=
  if trimStr key = "" then (none, store)
  else
    match List.lookup (trimStr key) store with
    | none => (none, store)
    | some data =>
      if data.length > 0 ∧ corruptedHeuristic data = true then
        (none, store.filter (fun kv => !(kv.1 == trimStr key)))
      else (some data, store)

theorem trimStr_empty : trimStr "" = "" := rfl

theorem corrupted_ne_empty {v : String} (h : corruptedHeuristic v = true) :
    v.length > 0 := by
  cases hl : v.length with
  | succ n => exact Nat.succ_pos n
  | zero =>
    rw [eq_empty_of_length_zero hl] at h
    cases h

theorem lookup_filter_ne {β : Type} (k : String) :
    ∀ (l : List (String × β)),
    List.lookup k (l.filter (fun kv => !(kv.1 == k))) = none := by
  intro l
  induction l with
  | nil => rfl
  | cons p rest ih =>
    cases hk : (p.1 == k) with
    | true =>
      rw [List.filter_cons_of_neg (by simp [hk])]
      exact ih
    | false =>
      rw [List.filter_cons_of_pos (by simp [hk])]
      have hk2 : (k == p.1) = false := by
        rw [beq_eq_false_iff_ne] at hk ⊢
        exact Ne.symm hk
      rw [List.lookup_cons, hk2]
      exact ih

/-- Claim C9: getItem never returns a value flagged by the corruption
heuristic: whenever the stored string is flagged (contains one of the
corruption markers, starts with an ASCII letter, or lacks both braces and
brackets while longer than ten characters), getItem removes the key from
the store and returns nothing, so plain-text values such as hello or the
bare literal true are destroyed on first read instead of being returned. -/
theorem claim_C9_corruption_scrub (key : String)
    (store : List (String × String)) (hk : trimStr key ≠ "") :
    (∀ w, (getItem key store).1 = some w → corruptedHeuristic w = false) ∧
    (∀ v, List.lookup (trimStr key) store = some v →
      corruptedHeuristic v = true →
      getItem key store =
        (none, store.filter (fun kv => !(kv.1 == trimStr key))) ∧
      List.lookup (trimStr key) (getItem key store).2 = none) := by
  constructor
  · intro w hw
    rw [getItem, if_neg hk] at hw
    cases hlk : List.lookup (trimStr key) store with
    | none =>
      rw [hlk] at hw
      exact absurd hw (by simp)
    | some data =>
      rw [hlk] at hw
      dsimp only at hw
      by_cases hcorr : data.length > 0 ∧ corruptedHeuristic data = true
      · rw [if_pos hcorr] at hw
        exact absurd hw (by simp)
      · rw [if_neg hcorr] at hw
        dsimp only at hw
        injection hw with hw2
        subst hw2
        cases hc : corruptedHeuristic data with
        | false => rfl
        | true => exact absurd ⟨corrupted_ne_empty hc, hc⟩ hcorr
  · intro v hv hcorr
    have heq : getItem key store =
        (none, store.filter (fun kv => !(kv.1 == trimStr key))) := by
      rw [getItem, if_neg hk, hv]
      dsimp only
      rw [if_pos ⟨corrupted_ne_empty hcorr, hcorr⟩]
    refine ⟨heq, ?_⟩
    rw [heq]
    exact lookup_filter_ne (trimStr key) store

/-- Witness for claim C9: the plain-text value hello and the bare JSON
literal true are both flagged, deleted from the store and not returned. -/
theorem claim_C9_witness :
    getItem "k" [("k", "hello")] = (none, []) ∧
    getItem "k" [("k", "true")] = (none, []) := by
  have h1 := (claim_C9_corruption_scrub "k" [("k", "hello")] (by decide)).2
    "hello" (by decide) (by decide)
  have h2 := (claim_C9_corruption_scrub "k" [("k", "true")] (by decide)).2
    "true" (by decide) (by decide)
  constructor
  · rw [h1.1]
    rfl
  · rw [h2.1]
    rfl

/-! ### Membership provider -/

inductive Tier where
  | trial : Tier
  | free : Tier
  | basic : Tier
  | premium : Tier
deriving DecidableEq

/-- The persisted membership state of the membership provider. -/
structure MembershipState where
  tier : Tier
  usageCount : Int
  dailyUsageCount : Int
  lastResetDate : String
  trialUsed : Bool
  trialUsageRemaining : Int
  monthlyUsageRemaining : Int
  isFirstLogin : Bool
deriving DecidableEq

/-- The Boolean decision of canUseFeature, computed from the state that
the callback closed over (the date reset below is enqueued separately and
does not feed this decision): trial needs remaining trial uses, free needs
fewer than 30 daily uses, basic needs monthly budget or fewer than 40
daily uses, premium is unlimited. -/
def canUseFeatureDecision (s : MembershipState) : Bool :=
  match s.tier with
  | Tier.trial => decide (s.trialUsageRemaining > 0)
  | Tier.free => decide (s.dailyUsageCount < 30)
  | Tier.basic =>
    decide (s.monthlyUsageRemaining > 0) || decide (s.dailyUsageCount < 40)
  | Tier.premium => true

/-- The state update enqueued by canUseFeature: when the stored reset date
differs from today, the daily counter is cleared and the date advanced. -/
def canUseFeatureState (today : String) (s : MembershipState) :
    MembershipState :=
  if s.lastResetDate ≠ today then
    { s with dailyUsageCount := 0, lastResetDate := today }
  else s

/-- The successful-path state update of useFeature, computed from the
closed-over state: both counters incremented; on trial the remaining
budget is decremented and the tier switches to free (with trialUsed set)
exactly when it reaches zero; on basic the monthly budget is decremented
while positive. -/
def bumpState (s : MembershipState) : MembershipState :=
  let ns := { s with usageCount := s.usageCount + 1,
                     dailyUsageCount := s.dailyUsageCount + 1 }
  match s.tier with
  | Tier.trial =>
    let ns2 := { ns with trialUsageRemaining := ns.trialUsageRemaining - 1 }
    if ns2.trialUsageRemaining = 0 then
      { ns2 with tier := Tier.free, trialUsed := true }
    else ns2
  | Tier.basic =>
    if ns.monthlyUsageRemaining > 0 then
      { ns with monthlyUsageRemaining := ns.monthlyUsageRemaining - 1 }
    else ns
  | _ => ns

/-- useFeature: when the decision is negative it returns false, leaving as
net effect only the daily reset enqueued by canUseFeature; when positive,
the wholesale setState of the bumped state (built from the same
closed-over state) wins over the enqueued reset, and the call returns
true. -/
def useFeature (today : String) (s : MembershipState) :
    Bool × MembershipState :=
  if canUseFeatureDecision s then (true, bumpState s)
  else (false, canUseFeatureState today s)

/-- Counterexample to claim C10 as stated: a free-tier member at the daily
limit, on the first call of a new day.  canUseFeature is false and
useFeature returns false, yet the membership state does change: the daily
counter is reset to zero and the stored date advances, contradicting that
a refused useFeature leaves the membership state unchanged. -/
theorem claim_C10_counterexample :
    canUseFeatureDecision
      ⟨Tier.free, 5, 30, "2026-10-11", true, 0, 0, false⟩ = false ∧
    (useFeature "2026-10-12"
      ⟨Tier.free, 5, 30, "2026-10-11", true, 0, 0, false⟩).1 = false ∧
    (useFeature "2026-10-12"
      ⟨Tier.free, 5, 30, "2026-10-11", true, 0, 0, false⟩).2 ≠
      ⟨Tier.free, 5, 30, "2026-10-11", true, 0, 0, false⟩ := by
  refine ⟨by decide, by decide, by decide⟩

/-- Claim C10 as amended: when canUseFeature is false, useFeature returns
false and the only state change is the daily reset enqueued by
canUseFeature (none at all when the stored date already is today); when it
is true, useFeature returns true, increments usageCount and
dailyUsageCount by exactly one relative to its closed-over state, and on
the trial tier decrements trialUsageRemaining, switching the tier to free
and setting trialUsed exactly when the remainder reaches zero; hence
trialUsageRemaining never becomes negative and a premium member is never
blocked. -/
theorem claim_C10_use_feature (today : String) (s : MembershipState) :
    (canUseFeatureDecision s = false →
      (useFeature today s).1 = false ∧
      (useFeature today s).2 = canUseFeatureState today s ∧
      (s.lastResetDate = today → (useFeature today s).2 = s)) ∧
    (canUseFeatureDecision s = true →
      (useFeature today s).1 = true ∧
      (useFeature today s).2.usageCount = s.usageCount + 1 ∧
      (useFeature today s).2.dailyUsageCount = s.dailyUsageCount + 1 ∧
      (s.tier = Tier.trial →
        (useFeature today s).2.trialUsageRemaining =
          s.trialUsageRemaining - 1 ∧
        (s.trialUsageRemaining - 1 = 0 →
          (useFeature today s).2.tier = Tier.free ∧
          (useFeature today s).2.trialUsed = true) ∧
        (s.trialUsageRemaining - 1 ≠ 0 →
          (useFeature today s).2.tier = s.tier ∧
          (useFeature today s).2.trialUsed = s.trialUsed)) ∧
      (s.tier ≠ Tier.trial →
        (useFeature today s).2.trialUsageRemaining =
          s.trialUsageRemaining)) ∧
    (0 ≤ s.trialUsageRemaining →
      0 ≤ (useFeature today s).2.trialUsageRemaining) ∧
    (s.tier = Tier.premium → (useFeature today s).1 = true) := by
  refine ⟨?_, ?_, ?_, ?_⟩
  · intro hd
    have hu : useFeature today s = (false, canUseFeatureState today s) := by
      simp [useFeature, hd]
    rw [hu]
    refine ⟨rfl, rfl, ?_⟩
    intro hdate
    rw [canUseFeatureState, if_neg (fun hcon => hcon hdate)]
  · intro hd
    rw [useFeature, hd]
    refine ⟨rfl, ?_, ?_, ?_, ?_⟩
    · cases htier : s.tier <;> rw [bumpState, htier] <;> dsimp only
      · by_cases hz : s.trialUsageRemaining - 1 = 0 <;> simp [hz]
      · rfl
      · by_cases hm : s.monthlyUsageRemaining > 0 <;> simp [hm]
      · rfl
    · cases htier : s.tier <;> rw [bumpState, htier] <;> dsimp only
      · by_cases hz : s.trialUsageRemaining - 1 = 0 <;> simp [hz]
      · rfl
      · by_cases hm : s.monthlyUsageRemaining > 0 <;> simp [hm]
      · rfl
    · intro htier
      rw [bumpState, htier]
      dsimp only
      by_cases hz : s.trialUsageRemaining - 1 = 0
      · refine ⟨by simp [hz], fun _ => by simp [hz], fun hnz => absurd hz hnz⟩
      · refine ⟨by simp [hz], fun hzz => absurd hzz hz, fun _ => by simp [hz, htier]⟩
    · intro htier
      cases htier2 : s.tier <;> rw [bumpState, htier2] <;> dsimp only
      · exact absurd htier2 htier
      · rfl
      · by_cases hm : s.monthlyUsageRemaining > 0 <;> simp [hm]
      · rfl
  · intro hnn
    rw [useFeature]
    by_cases hd : canUseFeatureDecision s = true
    · rw [if_pos hd]
      cases htier : s.tier <;> rw [bumpState, htier] <;> dsimp only
      · rw [canUseFeatureDecision, htier] at hd
        have hpos : s.trialUsageRemaining > 0 := of_decide_eq_true hd
        by_cases hz : s.trialUsageRemaining - 1 = 0 <;> simp [hz] <;> omega
      · exact hnn
      · by_cases hm : s.monthlyUsageRemaining > 0 <;> simp [hm] <;> exact hnn
      · exact hnn
    · rw [if_neg hd]
      dsimp only
      rw [canUseFeatureState]
      by_cases hdate : s.lastResetDate ≠ today <;> simp [hdate] <;> exact hnn
  · intro htier
    rw [useFeature, canUseFeatureDecision, htier]
    rfl

/-- Witness for the amended claim C10: a trial member with one remaining
use succeeds, is switched to the free tier with trialUsed set and a
non-negative remainder, while a premium member is always allowed. -/
theorem claim_C10_witness :
    (useFeature "2026-10-12"
      ⟨Tier.trial, 3, 1, "2026-10-12", false, 1, 0, false⟩).1 = true ∧
    (useFeature "2026-10-12"
      ⟨Tier.trial, 3, 1, "2026-10-12", false, 1, 0, false⟩).2.tier =
      Tier.free ∧
    (useFeature "2026-10-12"
      ⟨Tier.trial, 3, 1, "2026-10-12", false, 1, 0, false⟩).2.trialUsed =
      true ∧
    0 ≤ (useFeature "2026-10-12"
      ⟨Tier.trial, 3, 1, "2026-10-12", false, 1, 0, false⟩).2.trialUsageRemaining ∧
    (useFeature "2026-10-12"
      ⟨Tier.premium, 0, 0, "2026-10-12", true, 0, 0, false⟩).1 = true := by
  have h := claim_C10_use_feature "2026-10-12"
    ⟨Tier.trial, 3, 1, "2026-10-12", false, 1, 0, false⟩
  have h2 := claim_C10_use_feature "2026-10-12"
    ⟨Tier.premium, 0, 0, "2026-10-12", true, 0, 0, false⟩
  have hd := h.2.1 (by decide)
  have htr := hd.2.2.2.1 rfl
  exact ⟨hd.1, (htr.2.1 (by decide)).1, (htr.2.1 (by decide)).2,
    h.2.2.1 (by decide), h2.2.2.2 rfl⟩

/-- Witness for claim C3: two calls from different session states and
times agree on a concrete transcript. -/
theorem claim_C3_witness :
    findMatchingCommandRun
      ⟨true, true, true, true, RecState.recording, true, 7, 1⟩ 0
      [⟨"PauseIntent", [("en", ["pause"])]⟩] [] "pause" "en" =
    findMatchingCommandRun
      ⟨false, false, false, false, RecState.noRecorder, false, 0, 0⟩ 99
      [⟨"PauseIntent", [("en", ["pause"])]⟩] [] "pause" "en" :=
  claim_C3_matcher_deterministic
    ⟨true, true, true, true, RecState.recording, true, 7, 1⟩
    ⟨false, false, false, false, RecState.noRecorder, false, 0, 0⟩ 0 99
    [⟨"PauseIntent", [("en", ["pause"])]⟩] [] "pause" "en"

/-- Witness for claim C5: stopping a fully active always-listening session
reaches Idle with no capture session, and a subsequent start succeeds. -/
theorem claim_C5_witness :
    listenPhase (stopListening
      ⟨true, true, true, true, RecState.recording, true, 2, 1⟩) =
      ListenPhase.Idle ∧
    sessionCount (stopListening
      ⟨true, true, true, true, RecState.recording, true, 2, 1⟩) = 0 ∧
    listenPhase (startListening true (stopListening
      ⟨true, true, true, true, RecState.recording, true, 2, 1⟩)) =
      ListenPhase.Listening := by
  have h := claim_C5_stop_unconditional
    ⟨true, true, true, true, RecState.recording, true, 2, 1⟩ true
  exact ⟨h.1, h.2.2.2.2.1, h.2.2.2.2.2.2.1⟩
